import Mathlib

/-!
# Verification of the infinity-token-mint core pipeline

A shallow embedding of the three core components of the repository —
the admission controller (`CapacitorMint`), the batch queue
(`BatchProcessor`) and the hash-chained ledger (`ImmutableLedger`) —
together with proofs of the specification's claims about them.

Conventions of the embedding:
* JS numbers that only ever hold small exact values (charge, rates,
  intensities) are modelled as `ℚ`; array indices, sizes and epoch
  milliseconds as `ℕ`; the 32-bit wrap-around of the rolling hash as
  `Int` arithmetic with an explicit reduction modulo `2 ^ 32`.
* `Date` values are threaded as explicit `now` parameters: an ISO
  string where the source stores `toISOString()` and a millisecond
  count where it stores or compares `getTime()` / `Date.now()`.
* Methods become functions `args → State → State × Result`; a method
  that can `throw` returns `Except String`.
-/

namespace InfinityMint

/-- JS `Math.min` on exact rationals. -/
def jsMin (a b : ℚ) : ℚ := if a ≤ b then a else b

/-- JS `Math.max` on exact rationals. -/
def jsMax (a b : ℚ) : ℚ := if a ≤ b then b else a

theorem jsMin_eq_min (a b : ℚ) : jsMin a b = min a b := by
  unfold jsMin
  split <;> rename_i h
  · exact (min_eq_left h).symm
  · exact (min_eq_right (le_of_not_le h)).symm

theorem jsMax_eq_max (a b : ℚ) : jsMax a b = max a b := by
  unfold jsMax
  split <;> rename_i h
  · exact (max_eq_right h).symm
  · exact (max_eq_left (le_of_not_le h)).symm

/-! ## Admission Controller (`CapacitorMint`, source part_000 lines 4–139) -/

/-- One element of `this.activityLog` as pushed by `registerActivity`.
The source stores `timestamp` as an ISO string and re-parses it with
`new Date(...).getTime()` in `detectAbuse`; we keep the epoch
milliseconds directly. -/
structure ActivityEntry where
  type : String
  intensity : ℚ
  charge_added : ℚ
  timestamp : Nat
  total_charge : ℚ
deriving DecidableEq

/-- The mutable fields of a `CapacitorMint` instance. -/
structure CapacitorMint where
  charge : ℚ
  maxCharge : ℚ
  threshold : ℚ
  chargeRate : ℚ
  dischargeRate : ℚ
  activityLog : List ActivityEntry
  lastMintTime : Option Nat
deriving DecidableEq

namespace CapacitorMint

/-- `new CapacitorMint(config)`.  `config.capacitor_physics?.threshold || 100`:
a missing threshold, and a threshold of `0` (falsy in JS), both fall
back to `100`. -/
def init (thresholdCfg : Option ℚ) : CapacitorMint where
  charge := 0
  maxCharge := 100
  threshold :=
    match thresholdCfg with
    | none => 100
    | some t => if t = 0 then 100 else t
  chargeRate := 1
  dischargeRate := 20
  activityLog := []
  lastMintTime := none

/-- `canMint()`: `this.charge >= this.threshold`. -/
def canMint (s : CapacitorMint) : Bool := decide (s.threshold ≤ s.charge)

/-- Return value of `registerActivity`. -/
structure RegisterResult where
  charge : ℚ
  can_mint : Bool
deriving DecidableEq

/-- `registerActivity(activityType, intensity = 1)`. -/
def registerActivity (activityType : String) (intensity : ℚ) (now : Nat)
    (s : CapacitorMint) : CapacitorMint × RegisterResult :=
  let chargeAmount := intensity * s.chargeRate
  let charge1 := jsMin s.maxCharge (s.charge + chargeAmount)
  let log1 := s.activityLog ++
    [{ type := activityType, intensity := intensity, charge_added := chargeAmount,
       timestamp := now, total_charge := charge1 }]
  -- trim to the last 100 entries (`slice(-100)`)
  let log2 := if 100 < log1.length then log1.drop (log1.length - 100) else log1
  let s1 : CapacitorMint := { s with charge := charge1, activityLog := log2 }
  (s1, { charge := charge1, can_mint := canMint s1 })

/-- Return value of `attemptMint`. -/
inductive MintResult where
  | rejected (error : String) (charge threshold needed : ℚ)
  | success (charge : ℚ) (timestamp : Nat)
deriving DecidableEq

/-- `attemptMint()`. -/
def attemptMint (now : Nat) (s : CapacitorMint) : CapacitorMint × MintResult :=
  if canMint s = false then
    (s, .rejected "Insufficient capacitor charge" s.charge s.threshold
          (s.threshold - s.charge))
  else
    let s1 : CapacitorMint :=
      { s with charge := jsMax 0 (s.charge - s.dischargeRate), lastMintTime := some now }
    (s1, .success s1.charge now)

/-- `applyDecay(decayRate = 0.1)`. -/
def applyDecay (decayRate : ℚ) (s : CapacitorMint) : CapacitorMint :=
  { s with charge := jsMax 0 (s.charge - decayRate) }

/-- Return value of `boost`. -/
structure BoostResult where
  boosted : Bool
  boost_amount : ℚ
  new_charge : ℚ
deriving DecidableEq

/-- `boost(amount)`. -/
def boost (amount : ℚ) (s : CapacitorMint) : CapacitorMint × BoostResult :=
  let s1 : CapacitorMint := { s with charge := jsMin s.maxCharge (s.charge + amount) }
  (s1, { boosted := true, boost_amount := amount, new_charge := s1.charge })

/-- Return value of `detectAbuse`. -/
structure AbuseResult where
  abuse_detected : Bool
  pattern : Option String := none
  action : Option String := none
  cooldown : Option Nat := none
  suggestion : Option String := none
deriving DecidableEq

/-- `this.activityLog.slice(-10)`. -/
def recentActivities (s : CapacitorMint) : List ActivityEntry :=
  s.activityLog.drop (s.activityLog.length - 10)

/-- `timestamps[timestamps.length - 1] - timestamps[0]` over the last
ten activities (a signed difference of epoch milliseconds). -/
def timeSpan (s : CapacitorMint) : Int :=
  let timestamps := (recentActivities s).map (·.timestamp)
  ((timestamps.getLast?.getD 0 : Nat) : Int) - ((timestamps.head?.getD 0 : Nat) : Int)

/-- `types.every(t => t === types[0])`. -/
def allSameType (types : List String) : Bool :=
  match types with
  | [] => true
  | t0 :: _ => types.all (· == t0)

/-- `detectAbuse()`. -/
def detectAbuse (s : CapacitorMint) : AbuseResult :=
  if s.activityLog.length < 10 then { abuse_detected := false }
  else if timeSpan s < 1000 then
    { abuse_detected := true, pattern := some "rapid_fire",
      action := some "throttle", cooldown := some 5000 }
  else
    let types := (recentActivities s).map (·.type)
    if allSameType types && decide (8 < types.length) then
      { abuse_detected := true, pattern := some "repetitive",
        action := some "require_variety", suggestion := some "Vary activity types" }
    else { abuse_detected := false }

end CapacitorMint

/-- One call to a mutating operation of the admission controller. -/
inductive CapOp where
  | register (activityType : String) (intensity : ℚ) (now : Nat)
  | mint (now : Nat)
  | decay (rate : ℚ)
  | boostBy (amount : ℚ)
deriving DecidableEq

/-- Apply one operation, discarding its return value. -/
def CapOp.apply (s : CapacitorMint) : CapOp → CapacitorMint
  | .register t i now => (CapacitorMint.registerActivity t i now s).1
  | .mint now => (CapacitorMint.attemptMint now s).1
  | .decay r => CapacitorMint.applyDecay r s
  | .boostBy a => (CapacitorMint.boost a s).1

/-- The operation is called with its documented domain: a nonnegative
intensity / decay rate / boost amount. -/
def CapOp.nonnegArgs : CapOp → Bool
  | .register _ i _ => decide (0 ≤ i)
  | .mint _ => true
  | .decay r => decide (0 ≤ r)
  | .boostBy a => decide (0 ≤ a)

/-- Run a sequence of mutating operations on a freshly constructed
controller. -/
def runOps (thresholdCfg : Option ℚ) (ops : List CapOp) : CapacitorMint :=
  ops.foldl CapOp.apply (CapacitorMint.init thresholdCfg)

/-- The inductive invariant of the charge state: the charge is within
bounds and the (never mutated) rates are nonnegative. -/
def ChargeInv (s : CapacitorMint) : Prop :=
  0 ≤ s.charge ∧ s.charge ≤ s.maxCharge ∧ 0 ≤ s.chargeRate ∧ 0 ≤ s.dischargeRate

theorem chargeInv_init (cfg : Option ℚ) : ChargeInv (CapacitorMint.init cfg) := by
  refine ⟨le_refl 0, ?_, ?_, ?_⟩ <;> norm_num [CapacitorMint.init]

theorem chargeInv_apply (s : CapacitorMint) (op : CapOp)
    (h : ChargeInv s) (hop : op.nonnegArgs = true) : ChargeInv (op.apply s) := by
  obtain ⟨h0, h1, hcr, hdr⟩ := h
  cases op with
  | register t i now =>
    simp only [CapOp.nonnegArgs, decide_eq_true_eq] at hop
    simp only [CapOp.apply, CapacitorMint.registerActivity, jsMin, ChargeInv]
    split <;> rename_i hle
    · exact ⟨le_trans h0 h1, le_refl _, hcr, hdr⟩
    · refine ⟨?_, le_of_lt (lt_of_not_le hle), hcr, hdr⟩
      have : 0 ≤ i * s.chargeRate := mul_nonneg hop hcr
      linarith
  | mint now =>
    simp only [CapOp.apply, CapacitorMint.attemptMint]
    split
    · exact ⟨h0, h1, hcr, hdr⟩
    · simp only [jsMax, ChargeInv]
      split <;> rename_i hle
      · refine ⟨hle, ?_, hcr, hdr⟩
        linarith
      · exact ⟨le_refl 0, le_trans h0 h1, hcr, hdr⟩
  | decay r =>
    simp only [CapOp.nonnegArgs, decide_eq_true_eq] at hop
    simp only [CapOp.apply, CapacitorMint.applyDecay, jsMax, ChargeInv]
    split <;> rename_i hle
    · refine ⟨hle, ?_, hcr, hdr⟩
      linarith
    · exact ⟨le_refl 0, le_trans h0 h1, hcr, hdr⟩
  | boostBy a =>
    simp only [CapOp.nonnegArgs, decide_eq_true_eq] at hop
    simp only [CapOp.apply, CapacitorMint.boost, jsMin, ChargeInv]
    split <;> rename_i hle
    · exact ⟨le_trans h0 h1, le_refl _, hcr, hdr⟩
    · refine ⟨by linarith, le_of_lt (lt_of_not_le hle), hcr, hdr⟩

theorem chargeInv_foldl (ops : List CapOp) :
    ∀ s : CapacitorMint, ChargeInv s → (∀ op ∈ ops, op.nonnegArgs = true) →
      ChargeInv (ops.foldl CapOp.apply s) := by
  induction ops with
  | nil => intro s hs _; exact hs
  | cons op rest ih =>
    intro s hs hops
    simp only [List.foldl_cons]
    exact ih (op.apply s) (chargeInv_apply s op hs (hops op (by simp)))
      (fun o ho => hops o (by simp [ho]))

open CapacitorMint in
/-- C3: for every sequence of calls to the admission controller's
mutating operations (`registerActivity`, `boost`, `applyDecay`,
`attemptMint`), each called with a nonnegative intensity / rate /
amount, the invariant `0 ≤ charge ≤ maxCharge` holds after every call
(every such sequence of calls is itself quantified over, so the bound
holds at every intermediate state). -/
theorem capacitor_charge_bounded (thresholdCfg : Option ℚ) (ops : List CapOp)
    (hops : ∀ op ∈ ops, op.nonnegArgs = true) :
    0 ≤ (runOps thresholdCfg ops).charge ∧
      (runOps thresholdCfg ops).charge ≤ (runOps thresholdCfg ops).maxCharge := by
  have h := chargeInv_foldl ops (CapacitorMint.init thresholdCfg)
    (chargeInv_init thresholdCfg) hops
  exact ⟨h.1, h.2.1⟩

/-- A sample operation sequence exercising all four mutating operations. -/
def opsEx : List CapOp :=
  [.register "click" 100 0, .mint 1, .decay 2, .boostBy 30,
   .register "scroll" 7 2, .mint 3]

/-- Witness for `capacitor_charge_bounded` at a concrete operation
sequence. -/
theorem capacitor_charge_bounded_witness :
    (∀ op ∈ opsEx, op.nonnegArgs = true) ∧
      0 ≤ (runOps none opsEx).charge ∧
      (runOps none opsEx).charge ≤ (runOps none opsEx).maxCharge :=
  ⟨by decide, capacitor_charge_bounded none opsEx (by decide)⟩

open CapacitorMint in
/-- C4: `attemptMint` succeeds iff `charge ≥ threshold`; on success it
subtracts the fixed `dischargeRate` from the charge, floored at `0`,
and records the discharge timestamp; on rejection it returns the exact
deficit `threshold - charge` and the scenario
charge=0, threshold=100 → `registerActivity("click", 100)` →
`canMint() = true` → `attemptMint()` yields charge 80. -/
theorem attemptMint_threshold_spec (s : CapacitorMint) (now : Nat) :
    (canMint s = true ↔ s.threshold ≤ s.charge) ∧
    (canMint s = true →
      (attemptMint now s).1.charge = max 0 (s.charge - s.dischargeRate) ∧
      (attemptMint now s).1.lastMintTime = some now ∧
      (attemptMint now s).2 = .success (max 0 (s.charge - s.dischargeRate)) now) ∧
    (canMint s = false →
      (attemptMint now s).2 = .rejected "Insufficient capacitor charge"
        s.charge s.threshold (s.threshold - s.charge)) ∧
    ((registerActivity "click" 100 0 (init (some 100))).2.can_mint = true ∧
      (attemptMint 1 (registerActivity "click" 100 0 (init (some 100))).1).1.charge = 80) := by
  refine ⟨by simp [canMint], ?_, ?_, ?_⟩
  · intro h
    simp [attemptMint, h, jsMax_eq_max]
  · intro h
    simp [attemptMint, h]
  · have h1 : (registerActivity "click" 100 0 (init (some 100))).1 =
        { charge := 100, maxCharge := 100, threshold := 100, chargeRate := 1,
          dischargeRate := 20,
          activityLog := [{ type := "click", intensity := 100, charge_added := 100,
                            timestamp := 0, total_charge := 100 }],
          lastMintTime := none } := by
      norm_num [registerActivity, init, jsMin]
    constructor
    · simp only [registerActivity, init]
      norm_num [canMint, jsMin]
    · rw [h1]
      norm_num [attemptMint, canMint, jsMax]

/-- A controller state at its threshold, ready to discharge. -/
def chargedEx : CapacitorMint :=
  { charge := 100, maxCharge := 100, threshold := 100, chargeRate := 1,
    dischargeRate := 20, activityLog := [], lastMintTime := none }

open CapacitorMint in
/-- Witness for `attemptMint_threshold_spec`: discharging a fully
charged controller. -/
theorem attemptMint_threshold_spec_witness :
    canMint chargedEx = true ∧
      (attemptMint 5 chargedEx).1.charge = max 0 (chargedEx.charge - chargedEx.dischargeRate) ∧
      (attemptMint 5 chargedEx).1.lastMintTime = some 5 ∧
      (attemptMint 5 chargedEx).2 = .success (max 0 (chargedEx.charge - chargedEx.dischargeRate)) 5 :=
  ⟨by decide, (attemptMint_threshold_spec chargedEx 5).2.1 (by decide)⟩

open CapacitorMint in
/-- C10: a rejected `attemptMint` (when `charge < threshold`) leaves
the entire controller state — charge, threshold, `lastMintTime` and
the activity history — unchanged. -/
theorem attemptMint_reject_preserves_state (s : CapacitorMint) (now : Nat)
    (h : s.charge < s.threshold) : (attemptMint now s).1 = s := by
  have hc : canMint s = false := by
    simp only [canMint, decide_eq_false_iff_not, not_le]
    exact h
  simp [attemptMint, hc]

/-- Witness for `attemptMint_reject_preserves_state` on a freshly
constructed (uncharged) controller. -/
theorem attemptMint_reject_preserves_state_witness :
    (CapacitorMint.init none).charge < (CapacitorMint.init none).threshold ∧
      (CapacitorMint.attemptMint 7 (CapacitorMint.init none)).1 = CapacitorMint.init none :=
  ⟨by decide, attemptMint_reject_preserves_state (CapacitorMint.init none) 7 (by decide)⟩

/-- Ten identical-kind activities, 200 ms apart (a 1.8-second window):
the repetitive-abuse scenario. -/
def repetitiveEx : CapacitorMint :=
  (List.range 10).foldl
    (fun s k => (CapacitorMint.registerActivity "click" 1 (200 * k) s).1)
    (CapacitorMint.init none)

open CapacitorMint in
/-- C9: `detectAbuse` reports nothing when fewer than 10 events are
recorded; otherwise it checks the last 10 events, rapid-fire
(span < 1000 ms) first and repetitive (all of the last 10 — more than
8 — events of one kind) second, first match winning; and 10
identical-kind events inside a 2-second (but not sub-second) window
yield `pattern = repetitive`. -/
theorem detectAbuse_spec (s : CapacitorMint) :
    (s.activityLog.length < 10 → detectAbuse s = ⟨false, none, none, none, none⟩) ∧
    (10 ≤ s.activityLog.length → timeSpan s < 1000 →
      detectAbuse s = ⟨true, some "rapid_fire", some "throttle", some 5000, none⟩) ∧
    (10 ≤ s.activityLog.length → ¬ timeSpan s < 1000 →
      allSameType ((recentActivities s).map (·.type)) = true →
      detectAbuse s = ⟨true, some "repetitive", some "require_variety", none,
        some "Vary activity types"⟩) ∧
    ((detectAbuse s).pattern = some "repetitive" →
      10 ≤ s.activityLog.length ∧ 1000 ≤ timeSpan s ∧
      allSameType ((recentActivities s).map (·.type)) = true) ∧
    (timeSpan repetitiveEx = 1800 ∧
      (detectAbuse repetitiveEx).abuse_detected = true ∧
      (detectAbuse repetitiveEx).pattern = some "repetitive") := by
  refine ⟨?_, ?_, ?_, ?_, by decide⟩
  · intro h
    simp [detectAbuse, h]
  · intro h hspan
    rw [detectAbuse, if_neg (by omega), if_pos hspan]
  · intro h hspan hsame
    have hlen : ((recentActivities s).map (·.type)).length = 10 := by
      simp only [List.length_map, recentActivities, List.length_drop]
      omega
    rw [detectAbuse, if_neg (by omega), if_neg hspan]
    simp only [hsame, hlen]
    norm_num
  · intro h
    by_cases h10 : s.activityLog.length < 10
    · rw [detectAbuse, if_pos h10] at h
      simp at h
    · by_cases hspan : timeSpan s < 1000
      · rw [detectAbuse, if_neg h10, if_pos hspan] at h
        simp at h
      · by_cases hsame : allSameType ((recentActivities s).map (·.type)) = true
        · exact ⟨by omega, by omega, hsame⟩
        · have hsame2 : allSameType ((recentActivities s).map (·.type)) = false := by
            simpa using hsame
          rw [detectAbuse, if_neg h10, if_neg hspan] at h
          simp [hsame2] at h

open CapacitorMint in
/-- Witness for `detectAbuse_spec`: a fresh controller reports no
abuse, and the ten-identical-events state reports `repetitive`. -/
theorem detectAbuse_spec_witness :
    detectAbuse (CapacitorMint.init none) = ⟨false, none, none, none, none⟩ ∧
      detectAbuse repetitiveEx = ⟨true, some "repetitive", some "require_variety", none,
        some "Vary activity types"⟩ :=
  ⟨(detectAbuse_spec (CapacitorMint.init none)).1 (by decide),
   (detectAbuse_spec repetitiveEx).2.2.1 (by decide) (by decide) (by decide)⟩

/-! ## Batch Queue (`BatchProcessor`, source part_000 lines 148–285)

The token-creation collaborators handed to the constructor
(`alcMinter.mint` and `tokenFactory.createToken`) are modelled as
functions `MintRequest → Except String Token`: the source's
`{success:false, error}` result is re-thrown (`throw new
Error(result.error)`) and `createToken` throws directly, and both are
caught by the per-item `try/catch`, so each route collapses to the
`.error` branch carrying the failure message. -/

/-- The token record produced by the external token-creation
collaborator (and consumed by the ledger). -/
structure Token where
  id : String
  type : String
  owner : String
  value : Int
  timestamp : String
  immutable : Bool
deriving DecidableEq

/-- A queued mint request.  `type` is the request's optional token
type (`none` models a missing field); `body` stands for the rest of
the caller-supplied payload; `queued_at`/`status` are stamped by
`addToQueue`'s object spread. -/
structure MintRequest where
  type : Option String
  body : Nat
  queued_at : Option Nat := none
  status : Option String := none
deriving DecidableEq

/-- One element of `results.errors`. -/
structure BatchError where
  index : Nat
  request : MintRequest
  error : String
deriving DecidableEq

/-- The `results` object of `processBatch`. -/
structure BatchResult where
  batch_id : String
  timestamp : Nat
  size : Nat
  tokens : List Token
  errors : List BatchError
deriving DecidableEq

/-- The mutable fields of a `BatchProcessor` instance. -/
structure BatchProcessor where
  queue : List MintRequest
  processing : Bool
  maxBatchSize : Nat
  batchHistory : List BatchResult
deriving DecidableEq

/-- Return value of `addToQueue`.  `estimated_wait` is
`queue.length * 0.1` seconds. -/
structure EnqueueResult where
  success : Bool
  position : Nat
  estimated_wait : ℚ
deriving DecidableEq

/-- Return value of `processBatch`. -/
inductive ProcessOutcome where
  | alreadyProcessing (error : String)
  | emptyQueue (message : String)
  | completed (result : BatchResult)
deriving DecidableEq

namespace BatchProcessor

/-- `new BatchProcessor(tokenFactory, alcMinter)`. -/
def init : BatchProcessor :=
  { queue := [], processing := false, maxBatchSize := 100, batchHistory := [] }

/-- `addToQueue(request)`. -/
def addToQueue (request : MintRequest) (now : Nat) (s : BatchProcessor) :
    BatchProcessor × EnqueueResult :=
  let q := s.queue ++ [{ request with queued_at := some now, status := some "queued" }]
  ({ s with queue := q },
   { success := true, position := q.length, estimated_wait := (q.length : ℚ) * (1 / 10) })

/-- `request.type === 'ALC' || !request.type` (a missing `type` and
the empty string are both falsy). -/
def isALCRoute (r : MintRequest) : Bool :=
  match r.type with
  | none => true
  | some t => t == "ALC" || t == ""

/-- Route one request to the appropriate collaborator, as the body of
the `try` block does. -/
def routeMint (alcMint createToken : MintRequest → Except String Token)
    (r : MintRequest) : Except String Token :=
  if isALCRoute r then alcMint r else createToken r

/-- The `for` loop of `processBatch`: process the batch items in
order, collecting successful tokens and per-item errors (a failure is
recorded and the loop continues with the next item). -/
def runItems (alcMint createToken : MintRequest → Except String Token) :
    Nat → List MintRequest → List Token × List BatchError
  | _, [] => ([], [])
  | i, r :: rs =>
    let rest := runItems alcMint createToken (i + 1) rs
    match routeMint alcMint createToken r with
    | .ok token => (token :: rest.1, rest.2)
    | .error e => (rest.1, { index := i, request := r, error := e } :: rest.2)

/-- `batchSize || this.maxBatchSize` (`null`/`0` fall back to the
maximum). -/
def effectiveBatchSize (batchSize : Option Nat) (s : BatchProcessor) : Nat :=
  match batchSize with
  | none => s.maxBatchSize
  | some b => if b = 0 then s.maxBatchSize else b

/-- `processBatch(batchSize = null)`.  `batchId`/`now` thread the
source's `generateBatchId()` and `new Date()`. -/
def processBatch (alcMint createToken : MintRequest → Except String Token)
    (batchSize : Option Nat) (batchId : String) (now : Nat) (s : BatchProcessor) :
    BatchProcessor × ProcessOutcome :=
  if s.processing then (s, .alreadyProcessing "Batch already processing")
  else
    let size := min (effectiveBatchSize batchSize s) s.queue.length
    if size = 0 then (s, .emptyQueue "Queue is empty")
    else
      let batch := s.queue.take size
      let items := runItems alcMint createToken 0 batch
      let results : BatchResult :=
        { batch_id := batchId, timestamp := now, size := size,
          tokens := items.1, errors := items.2 }
      let history := s.batchHistory ++ [results]
      -- trim history to the last 50 batches (`slice(-50)`)
      let history2 := if 50 < history.length then history.drop (history.length - 50) else history
      ({ queue := s.queue.drop size, processing := false,
         maxBatchSize := s.maxBatchSize, batchHistory := history2 },
       .completed results)

theorem runItems_eq (alcMint createToken : MintRequest → Except String Token)
    (rs : List MintRequest) : ∀ i,
    runItems alcMint createToken i rs =
      (rs.filterMap (fun r => (routeMint alcMint createToken r).toOption),
       (rs.enumFrom i).filterMap (fun p =>
          match routeMint alcMint createToken p.2 with
          | .ok _ => none
          | .error e => some { index := p.1, request := p.2, error := e })) := by
  induction rs with
  | nil => intro i; simp [runItems]
  | cons r rest ih =>
    intro i
    simp only [runItems, ih (i + 1), List.enumFrom_cons, List.filterMap_cons]
    cases hr : routeMint alcMint createToken r <;> simp [Except.toOption, hr]

end BatchProcessor

open BatchProcessor in
/-- C8: while a drained job is outstanding (`processing` is true), a
further `processBatch` call is rejected with "Batch already
processing", removes nothing from the pending queue and records no
new batch. -/
theorem processBatch_inflight_reject
    (alcMint createToken : MintRequest → Except String Token)
    (batchSize : Option Nat) (batchId : String) (now : Nat)
    (s : BatchProcessor) (h : s.processing = true) :
    processBatch alcMint createToken batchSize batchId now s =
        (s, .alreadyProcessing "Batch already processing") ∧
      (processBatch alcMint createToken batchSize batchId now s).1.queue = s.queue ∧
      (processBatch alcMint createToken batchSize batchId now s).1.batchHistory =
        s.batchHistory := by
  refine ⟨?_, ?_, ?_⟩ <;> simp [processBatch, h]

/-- A queue state with a drained job still in flight. -/
def inflightEx : BatchProcessor :=
  { queue := [{ type := none, body := 1 }], processing := true,
    maxBatchSize := 100, batchHistory := [] }

/-- A collaborator that always succeeds (used where the routing choice
is irrelevant). -/
def okMinter : MintRequest → Except String Token :=
  fun r => .ok { id := "T" ++ toString r.body, type := "ALC", owner := "user",
                 value := 1, timestamp := "t", immutable := true }

open BatchProcessor in
/-- Witness for `processBatch_inflight_reject` at a concrete in-flight
state. -/
theorem processBatch_inflight_reject_witness :
    inflightEx.processing = true ∧
      processBatch okMinter okMinter (some 10) "B" 0 inflightEx =
        (inflightEx, .alreadyProcessing "Batch already processing") :=
  ⟨by decide,
   (processBatch_inflight_reject okMinter okMinter (some 10) "B" 0 inflightEx (by decide)).1⟩

/-- The twelve requests of the batch scenario, with 1-based payloads. -/
def requestsEx : List MintRequest :=
  (List.range 12).map (fun k => { type := none, body := k + 1 })

/-- The queue after enqueueing the twelve scenario requests. -/
def queuedEx : BatchProcessor :=
  requestsEx.foldl (fun s r => (BatchProcessor.addToQueue r 0 s).1) BatchProcessor.init

/-- A collaborator for which the 4th enqueued request (and only it)
fails validation. -/
def failingMinter : MintRequest → Except String Token :=
  fun r => if r.body = 4 then .error "Invalid mint request" else okMinter r

/-- The scenario batch outcome: 12 enqueued requests, `processBatch(10)`. -/
def scenarioOutcome : ProcessOutcome :=
  (BatchProcessor.processBatch failingMinter failingMinter (some 10) "B1" 5 queuedEx).2

/-- The committed tokens of an outcome. -/
def outcomeTokens : ProcessOutcome → List Token
  | .completed r => r.tokens
  | _ => []

/-- The recorded failures of an outcome. -/
def outcomeErrors : ProcessOutcome → List BatchError
  | .completed r => r.errors
  | _ => []

open BatchProcessor in
/-- C7: per-item failures are isolated: with no job in flight and a
nonempty effective batch, `processBatch` drains the first `size`
queued items, processes every one of them in enqueue order, commits
exactly the successes (in order) and records every failure with its
0-based index and reason, never aborting the rest.  In particular, in
the 12-requests/batch-of-10 scenario with item #4 failing validation,
9 tokens are committed and the single failure is recorded at index 3. -/
theorem processBatch_partial_failure_spec
    (alcMint createToken : MintRequest → Except String Token)
    (batchSize : Option Nat) (batchId : String) (now : Nat) (s : BatchProcessor)
    (hp : s.processing = false)
    (hsz : 0 < min (effectiveBatchSize batchSize s) s.queue.length) :
    (processBatch alcMint createToken batchSize batchId now s).1.queue =
        s.queue.drop (min (effectiveBatchSize batchSize s) s.queue.length) ∧
      (processBatch alcMint createToken batchSize batchId now s).2 =
        .completed
          { batch_id := batchId, timestamp := now,
            size := min (effectiveBatchSize batchSize s) s.queue.length,
            tokens := (s.queue.take (min (effectiveBatchSize batchSize s) s.queue.length)).filterMap
              (fun r => (routeMint alcMint createToken r).toOption),
            errors := ((s.queue.take (min (effectiveBatchSize batchSize s) s.queue.length)).enumFrom 0).filterMap
              (fun p =>
                match routeMint alcMint createToken p.2 with
                | .ok _ => none
                | .error e => some { index := p.1, request := p.2, error := e }) } ∧
      ((outcomeTokens scenarioOutcome).length = 9 ∧
        (outcomeErrors scenarioOutcome).map (fun e => (e.index, e.error)) =
          [(3, "Invalid mint request")]) := by
  refine ⟨?_, ?_, by decide⟩
  · rw [processBatch, if_neg (by simp [hp])]
    rw [if_neg (by omega)]
  · rw [processBatch, if_neg (by simp [hp])]
    rw [if_neg (by omega)]
    simp only [runItems_eq]

open BatchProcessor in
/-- Witness for `processBatch_partial_failure_spec` at the scenario
queue. -/
theorem processBatch_partial_failure_spec_witness :
    queuedEx.processing = false ∧
      0 < min (effectiveBatchSize (some 10) queuedEx) queuedEx.queue.length ∧
      (processBatch failingMinter failingMinter (some 10) "B1" 5 queuedEx).1.queue =
        queuedEx.queue.drop (min (effectiveBatchSize (some 10) queuedEx) queuedEx.queue.length) :=
  ⟨by decide, by decide,
   (processBatch_partial_failure_spec failingMinter failingMinter (some 10) "B1" 5 queuedEx
      (by decide) (by decide)).1⟩

/-! ## Hash-Chained Ledger (`ImmutableLedger`, source part_003 lines 4–177) -/

/-- JS `ToInt32`: the effect of `hash & hash` (and of `<<`) on a
number, reducing it to a signed 32-bit value. -/
def toInt32 (x : Int) : Int := (x + 2 ^ 31) % 2 ^ 32 - 2 ^ 31

/-- One iteration of the rolling hash:
`hash = ((hash << 5) - hash) + char; hash = hash & hash`.
`hash << 5` first wraps its operand's shift to 32 bits; the
subtraction and addition are exact (they stay well inside the double's
integer range); `& ` wraps the result back to 32 bits. -/
def hashStep (hash : Int) (c : Char) : Int :=
  toInt32 (toInt32 (hash * 32) - hash + c.toNat)

/-- The rolling hash over a string's code units, starting from 0. -/
def jsStringHash (data : String) : Int := data.data.foldl hashStep 0

/-- JS `Number.prototype.toString(16)` for a natural number
(lowercase hex digits, most significant first). -/
def toHexString (n : Nat) : String := String.mk (Nat.toDigits 16 n)

/-- JS `String.prototype.padStart(width, fill)`. -/
def padStart (width : Nat) (fill : Char) (str : String) : String :=
  if str.length < width then String.mk (List.replicate (width - str.length) fill) ++ str
  else str

/-- `calculateHash(token)`:
`` hash(`${id}${type}${owner}${value}${timestamp}`) `` rendered as
`0x` plus the absolute value in hex, left-padded to 16 digits. -/
def calculateHash (token : Token) : String :=
  let data := token.id ++ token.type ++ token.owner ++ toString token.value ++ token.timestamp
  "0x" ++ padStart 16 '0' (toHexString (jsStringHash data).natAbs)

/-- A ledger entry.  `merkle_root` is the `batchDigestId` reference,
absent until the entry's range is sealed. -/
structure Entry where
  index : Nat
  token_id : String
  token_type : String
  owner : String
  value : Int
  timestamp : String
  added_at : Nat
  hash : String
  previous_hash : String
  immutable : Bool
  sealed : Bool
  merkle_root : Option String
deriving DecidableEq

/-- `calculateBatchHash(batch)`: the rolling hash of the concatenation
of the batch entries' hashes, rendered with 32-digit padding. -/
def calculateBatchHash (batch : List Entry) : String :=
  let hashes := String.join (batch.map (·.hash))
  "0x" ++ padStart 32 '0' (toHexString (jsStringHash hashes).natAbs)

/-- A batch digest (`merkleRoot` object).  `batch_start` is
`Math.max(0, lastIndex - 100)`, which on naturals is truncated
subtraction; `batch_end` is `lastIndex - 1` and is `-1` when invoked
on an empty ledger, hence an `Int`. -/
structure MerkleRoot where
  root_id : String
  batch_start : Nat
  batch_end : Int
  batch_size : Nat
  timestamp : String
  root_hash : String
  sealed : Bool
  immutable : Bool
deriving DecidableEq

/-- The mutable fields of an `ImmutableLedger` instance (the
constructor's `this.sealed = false` flag is never touched again). -/
structure ImmutableLedger where
  ledger : List Entry
  merkleRoots : List MerkleRoot
  sealed : Bool
deriving DecidableEq

namespace ImmutableLedger

/-- `new ImmutableLedger()`. -/
def init : ImmutableLedger := { ledger := [], merkleRoots := [], sealed := false }

/-- The per-entry mutation performed when a range is sealed. -/
def sealEntry (rootId : String) (e : Entry) : Entry :=
  { e with sealed := true, merkle_root := some rootId }

/-- `createMerkleRoot()`.  `nowIso`/`nowMs` thread `new Date()` /
`Date.now()`. -/
def createMerkleRoot (nowIso : String) (nowMs : Nat) (s : ImmutableLedger) :
    ImmutableLedger × MerkleRoot :=
  let lastIndex := s.ledger.length
  let batchStart := lastIndex - 100
  let batch := s.ledger.drop batchStart
  let root : MerkleRoot :=
    { root_id := s!"MERKLE_{nowMs}", batch_start := batchStart,
      batch_end := (lastIndex : Int) - 1, batch_size := batch.length,
      timestamp := nowIso, root_hash := calculateBatchHash batch,
      sealed := true, immutable := true }
  let newLedger := s.ledger.mapIdx (fun i e =>
    if batchStart ≤ i ∧ i < lastIndex then sealEntry root.root_id e else e)
  ({ s with ledger := newLedger, merkleRoots := s.merkleRoots ++ [root] }, root)

/-- The `entry` object built by `addToken`. -/
def newEntry (token : Token) (nowIso : String) (nowMs : Nat) (s : ImmutableLedger) : Entry :=
  { index := s.ledger.length, token_id := token.id, token_type := token.type,
    owner := token.owner, value := token.value, timestamp := nowIso,
    added_at := nowMs, hash := calculateHash token,
    previous_hash := match s.ledger.getLast? with
      | some prev => prev.hash
      | none => "0",
    immutable := true, sealed := false, merkle_root := none }

/-- `addToken(token)`.  Throws unless the token is marked immutable;
appends the chained entry; seals a range whenever the new length is a
multiple of 100.  The returned entry is the (shared, possibly
seal-updated) object the source returns. -/
def addToken (token : Token) (nowIso : String) (nowMs : Nat) (s : ImmutableLedger) :
    Except String (ImmutableLedger × Entry) :=
  if token.immutable = false then .error "Only immutable tokens can be added to ledger"
  else
    let entry : Entry := newEntry token nowIso nowMs s
    let s1 : ImmutableLedger := { s with ledger := s.ledger ++ [entry] }
    if s1.ledger.length % 100 = 0 then
      let s2 := (createMerkleRoot nowIso nowMs s1).1
      .ok (s2, (s2.ledger.getLast?.getD entry))
    else
      .ok (s1, entry)

/-- One append attempt: on a thrown error the state is unchanged. -/
def step (s : ImmutableLedger) (input : Token × String × Nat) : ImmutableLedger :=
  match addToken input.1 input.2.1 input.2.2 s with
  | .ok (s1, _) => s1
  | .error _ => s

/-- A sequence of append attempts against a fresh ledger. -/
def runAppends (inputs : List (Token × String × Nat)) : ImmutableLedger :=
  inputs.foldl step init

/-- One element of `results.errors` in `verifyIntegrity`. -/
structure IntegrityError where
  index : Nat
  error : String
  expected : String
  actual : String
deriving DecidableEq

/-- The `results` object of `verifyIntegrity`. -/
structure IntegrityResult where
  valid : Bool
  total_entries : Nat
  verified_entries : Nat
  errors : List IntegrityError
deriving DecidableEq

/-- The `for` loop of `verifyIntegrity`, from index `i` with
`previous = entries[i-1]`: a mismatch flips `valid` and appends an
error record, a match bumps the verified count; either way the loop
continues. -/
def verifyLoop : Nat → Entry → List Entry → IntegrityResult → IntegrityResult
  | _, _, [], acc => acc
  | i, previous, current :: rest, acc =>
    if current.previous_hash ≠ previous.hash then
      verifyLoop (i + 1) current rest
        { acc with
          valid := false,
          errors := acc.errors ++
            [{ index := i, error := "Hash chain broken",
               expected := previous.hash, actual := current.previous_hash }] }
    else
      verifyLoop (i + 1) current rest
        { acc with verified_entries := acc.verified_entries + 1 }

/-- `verifyIntegrity()`. -/
def verifyIntegrity (s : ImmutableLedger) : IntegrityResult :=
  let base : IntegrityResult :=
    { valid := true, total_entries := s.ledger.length, verified_entries := 0, errors := [] }
  match s.ledger with
  | [] => base
  | first :: rest => verifyLoop 1 first rest base

/-- The hash-chain shape of an entry list: starting from previous
hash `prevHash` and position `idx`, every entry links to its
predecessor's hash and carries its position as `index`. -/
def chainedFrom (prevHash : String) (idx : Nat) : List Entry → Prop
  | [] => True
  | e :: rest => e.previous_hash = prevHash ∧ e.index = idx ∧ chainedFrom e.hash (idx + 1) rest

theorem chainedFrom_append (l : List Entry) : ∀ (p : String) (idx : Nat) (e : Entry),
    chainedFrom p idx l →
    e.previous_hash = (match l.getLast? with | some prev => prev.hash | none => p) →
    e.index = idx + l.length →
    chainedFrom p idx (l ++ [e]) := by
  induction l with
  | nil =>
    intro p idx e _ hprev hidx
    simp only [List.getLast?_nil] at hprev
    simp only [List.length_nil, Nat.add_zero] at hidx
    exact ⟨hprev, hidx, trivial⟩
  | cons a rest ih =>
    intro p idx e hc hprev hidx
    obtain ⟨ha1, ha2, hrest⟩ := hc
    refine ⟨ha1, ha2, ih a.hash (idx + 1) e hrest ?_ ?_⟩
    · cases rest with
      | nil => simpa using hprev
      | cons b bs => rw [List.getLast?_cons_cons] at hprev; exact hprev
    · simp only [List.length_cons] at hidx
      omega

theorem chainedFrom_mapIdx : ∀ (l : List Entry) (f : Nat → Entry → Entry),
    (∀ i e, (f i e).hash = e.hash ∧ (f i e).previous_hash = e.previous_hash ∧
      (f i e).index = e.index) →
    ∀ (p : String) (idx : Nat), chainedFrom p idx l → chainedFrom p idx (l.mapIdx f)
  | [], _, _, _, _, _ => by simp [List.mapIdx_nil, chainedFrom]
  | a :: rest, f, hf, p, idx, h => by
    obtain ⟨h1, h2, h3⟩ := h
    rw [List.mapIdx_cons]
    refine ⟨?_, ?_, ?_⟩
    · rw [(hf 0 a).2.1]; exact h1
    · rw [(hf 0 a).2.2]; exact h2
    · rw [(hf 0 a).1]
      exact chainedFrom_mapIdx rest (fun i => f (i + 1)) (fun i e => hf (i + 1) e)
        a.hash (idx + 1) h3

theorem chainedFrom_get : ∀ (l : List Entry) (p : String) (k : Nat),
    chainedFrom p k l → ∀ i (h : i < l.length),
      (l.get ⟨i, h⟩).index = k + i ∧
      (l.get ⟨i, h⟩).previous_hash =
        (if hi : i = 0 then p else (l.get ⟨i - 1, by omega⟩).hash)
  | [], _, _, _, i, h => absurd h (by simp)
  | e :: rest, p, k, hc, i, h => by
    obtain ⟨h1, h2, h3⟩ := hc
    match i with
    | 0 => simpa [h2] using h1
    | j + 1 =>
      have hj : j < rest.length := by simpa using h
      have := chainedFrom_get rest e.hash (k + 1) h3 j hj
      simp only [List.get_cons_succ]
      refine ⟨?_, ?_⟩
      · rw [this.1]; omega
      · rw [this.2]
        match j with
        | 0 => simp
        | j' + 1 => simp

/-- The batch-digest bookkeeping invariant: the recorded digests cover
exactly the 100-entry ranges below the current seal point, in order,
and an entry is sealed (with its digest id set) exactly when it lies
below that point. -/
def SealInv (s : ImmutableLedger) : Prop :=
  (s.merkleRoots.map (fun r => (r.batch_start, r.batch_end)) =
    (List.range (s.ledger.length / 100)).map
      (fun k => ((100 * k : Nat), (100 * k + 99 : Int)))) ∧
  ∀ i (h : i < s.ledger.length),
    (i < 100 * (s.ledger.length / 100) →
      (s.ledger.get ⟨i, h⟩).sealed = true ∧
      ∃ hk : i / 100 < s.merkleRoots.length,
        (s.ledger.get ⟨i, h⟩).merkle_root =
          some (s.merkleRoots.get ⟨i / 100, hk⟩).root_id) ∧
    (100 * (s.ledger.length / 100) ≤ i →
      (s.ledger.get ⟨i, h⟩).sealed = false ∧ (s.ledger.get ⟨i, h⟩).merkle_root = none)

/-- The full ledger invariant maintained by `addToken`. -/
def LedgerInv (s : ImmutableLedger) : Prop :=
  chainedFrom "0" 0 s.ledger ∧ SealInv s

theorem ledgerInv_init : LedgerInv ImmutableLedger.init := by
  refine ⟨trivial, by simp [ImmutableLedger.init], ?_⟩
  intro i h
  simp [ImmutableLedger.init] at h

theorem ledgerInv_push_noSeal (s : ImmutableLedger) (e : Entry)
    (hInv : LedgerInv s)
    (hprev : e.previous_hash =
      (match s.ledger.getLast? with | some prev => prev.hash | none => "0"))
    (hidx : e.index = s.ledger.length)
    (hsealed : e.sealed = false) (hmr : e.merkle_root = none)
    (hmod : (s.ledger.length + 1) % 100 ≠ 0) :
    LedgerInv { s with ledger := s.ledger ++ [e] } := by
  have hchain := hInv.1
  have hmap := hInv.2.1
  have hentries := hInv.2.2
  have hdiv : (s.ledger.length + 1) / 100 = s.ledger.length / 100 := by omega
  refine ⟨chainedFrom_append s.ledger "0" 0 e hchain hprev (by omega), ?_, ?_⟩
  · simpa [hdiv] using hmap
  · intro i h
    simp only [List.length_append, List.length_cons, List.length_nil] at h ⊢
    rw [hdiv]
    rcases Nat.lt_or_ge i s.ledger.length with hi | hi
    · have hget : (s.ledger ++ [e]).get ⟨i, by simpa using h⟩ = s.ledger.get ⟨i, hi⟩ := by
        simp only [List.get_eq_getElem]
        exact List.getElem_append_left hi
      rw [hget]
      exact hentries i hi
    · have hie : i = s.ledger.length := by omega
      have hget : (s.ledger ++ [e]).get ⟨i, by simpa using h⟩ = e := by
        simp only [List.get_eq_getElem, hie]
        exact List.getElem_concat_length _ _ _ rfl _
      rw [hget]
      constructor
      · intro hlt
        have : 100 * (s.ledger.length / 100) ≤ s.ledger.length := by omega
        omega
      · intro _
        exact ⟨hsealed, hmr⟩

theorem ledgerInv_push_seal (s : ImmutableLedger) (e : Entry)
    (nowIso : String) (nowMs : Nat)
    (hInv : LedgerInv s)
    (hprev : e.previous_hash =
      (match s.ledger.getLast? with | some prev => prev.hash | none => "0"))
    (hidx : e.index = s.ledger.length)
    (hmod : (s.ledger.length + 1) % 100 = 0) :
    LedgerInv (createMerkleRoot nowIso nowMs { s with ledger := s.ledger ++ [e] }).1 := by
  have hchain := hInv.1
  have hmap := hInv.2.1
  have hentries := hInv.2.2
  set n := s.ledger.length with hn
  set q := n / 100 with hq
  have hn99 : n % 100 = 99 := by omega
  have hge : 100 ≤ n + 1 := by omega
  have hRlen : s.merkleRoots.length = q := by
    have := congrArg List.length hmap
    simpa using this
  set l1 := s.ledger ++ [e] with hl1
  have hl1len : l1.length = n + 1 := by simp [hl1]
  have hbs : l1.length - 100 = 100 * q := by omega
  simp only [createMerkleRoot]
  set rid := (s!"MERKLE_{nowMs}" : String) with hrid
  refine ⟨?_, ?_, ?_⟩
  · -- the chain survives sealing: the update touches no chain field
    apply chainedFrom_mapIdx
    · intro i x
      refine ⟨?_, ?_, ?_⟩ <;> (split <;> simp [sealEntry])
    · exact chainedFrom_append s.ledger "0" 0 e hchain hprev (by omega)
  · -- digest ranges extend by exactly the newly sealed range
    have hdiv : (n + 1) / 100 = q + 1 := by omega
    simp only [List.map_append, List.length_mapIdx, hl1len, hdiv, List.range_succ]
    rw [hmap]
    congr 1
    simp only [List.map_cons, List.map_nil, List.cons.injEq, Prod.mk.injEq, and_true]
    exact ⟨by omega, by omega⟩
  · -- per-entry sealed flags and digest ids
    intro i h
    dsimp only at h ⊢
    simp only [List.length_mapIdx, hl1len] at h
    have hcut : 100 * ((n + 1) / 100) = n + 1 := by omega
    simp only [List.length_mapIdx, List.length_append, List.length_singleton, hl1len, hRlen,
      List.get_eq_getElem, List.getElem_mapIdx, hcut]
    constructor
    · intro _
      by_cases hc : n + 1 - 100 ≤ i
      · rw [if_pos ⟨hc, by omega⟩]
        refine ⟨rfl, ⟨by omega, ?_⟩⟩
        have hiq : i / 100 = q := by omega
        simp only [hiq]
        conv_rhs => rw [List.getElem_append_right (by omega)]
        simp [hRlen, sealEntry]
      · rw [if_neg (by omega)]
        have hi : i < n := by omega
        have hic : i < 100 * q := by omega
        have hold := (hentries i hi).1 hic
        obtain ⟨hs, hk, hroot⟩ := hold
        simp only [List.get_eq_getElem] at hs hroot
        simp only [hl1]
        rw [List.getElem_append_left hi]
        refine ⟨hs, ⟨by omega, ?_⟩⟩
        rw [List.getElem_append_left hk]
        exact hroot
    · intro habs
      omega

theorem ledgerInv_step (s : ImmutableLedger) (input : Token × String × Nat)
    (h : LedgerInv s) : LedgerInv (step s input) := by
  obtain ⟨tok, nowIso, nowMs⟩ := input
  by_cases himm : tok.immutable = false
  · simp only [step, addToken, if_pos himm]
    exact h
  · simp only [step, addToken, if_neg himm, List.length_append, List.length_singleton]
    by_cases hmod : (s.ledger.length + 1) % 100 = 0
    · rw [if_pos hmod]
      exact ledgerInv_push_seal s _ nowIso nowMs h rfl rfl hmod
    · rw [if_neg hmod]
      exact ledgerInv_push_noSeal s _ h rfl rfl rfl rfl hmod

theorem ledgerInv_foldl : ∀ (inputs : List (Token × String × Nat)) (s : ImmutableLedger),
    LedgerInv s → LedgerInv (inputs.foldl step s)
  | [], _, h => h
  | x :: rest, s, h => ledgerInv_foldl rest (step s x) (ledgerInv_step s x h)

theorem ledgerInv_runAppends (inputs : List (Token × String × Nat)) :
    LedgerInv (runAppends inputs) :=
  ledgerInv_foldl inputs ImmutableLedger.init ledgerInv_init

theorem step_length (s : ImmutableLedger) (input : Token × String × Nat)
    (himm : input.1.immutable = true) :
    (step s input).ledger.length = s.ledger.length + 1 := by
  obtain ⟨tok, nowIso, nowMs⟩ := input
  have himm2 : ¬ tok.immutable = false := by simp_all
  simp only [step, addToken, if_neg himm2, List.length_append, List.length_singleton]
  by_cases hmod : (s.ledger.length + 1) % 100 = 0
  · rw [if_pos hmod]
    simp [createMerkleRoot]
  · rw [if_neg hmod]
    simp

theorem runAppends_length (inputs : List (Token × String × Nat))
    (himm : ∀ x ∈ inputs, x.1.immutable = true) :
    (runAppends inputs).ledger.length = inputs.length := by
  suffices hgen : ∀ (l : List (Token × String × Nat)) (s : ImmutableLedger),
      (∀ x ∈ l, x.1.immutable = true) →
      (l.foldl step s).ledger.length = s.ledger.length + l.length by
    simpa [runAppends, ImmutableLedger.init] using hgen inputs ImmutableLedger.init himm
  intro l
  induction l with
  | nil => intro s _; simp
  | cons x rest ih =>
    intro s hx
    simp only [List.foldl_cons, List.length_cons]
    rw [ih (step s x) (fun y hy => hx y (by simp [hy]))]
    rw [step_length s x (hx x (by simp))]
    omega

/-- The entry preceding position `j` of `rest` in a walk that starts
with `previous = prev`. -/
def prevAt (prev : Entry) (rest : List Entry) (j : Nat) (h : j < rest.length) : Entry :=
  if hj : j = 0 then prev else rest.get ⟨j - 1, by omega⟩

theorem prevAt_zero (prev : Entry) (rest : List Entry) (h : 0 < rest.length) :
    prevAt prev rest 0 h = prev := by
  simp [prevAt]

theorem prevAt_eq_get_cons (c : Entry) (rest : List Entry) (j : Nat) (h : j < rest.length) :
    prevAt c rest j h = (c :: rest).get ⟨j, by simp; omega⟩ := by
  match j with
  | 0 => simp [prevAt]
  | k + 1 => simp [prevAt]

theorem prevAt_cons_succ (prev c : Entry) (rest : List Entry) (j : Nat)
    (h : j + 1 < (c :: rest).length) :
    prevAt prev (c :: rest) (j + 1) h = prevAt c rest j (by simpa using h) := by
  match j with
  | 0 => simp [prevAt]
  | k + 1 => simp [prevAt]

/-- Specification-side description of a clean walk: every entry of
`rest` links to its predecessor's hash. -/
def hashesMatch : Entry → List Entry → Bool
  | _, [] => true
  | prev, c :: rest => (c.previous_hash == prev.hash) && hashesMatch c rest

/-- Specification-side description of the collected mismatch errors,
one per broken link, in walk order. -/
def specErrors : Nat → Entry → List Entry → List IntegrityError
  | _, _, [] => []
  | i, prev, c :: rest =>
    (if c.previous_hash ≠ prev.hash then
      [{ index := i, error := "Hash chain broken", expected := prev.hash,
         actual := c.previous_hash }]
     else []) ++ specErrors (i + 1) c rest

theorem verifyLoop_valid : ∀ (rest : List Entry) (i : Nat) (prev : Entry)
    (acc : IntegrityResult),
    (verifyLoop i prev rest acc).valid = (acc.valid && hashesMatch prev rest)
  | [], i, prev, acc => by simp [verifyLoop, hashesMatch]
  | c :: rest, i, prev, acc => by
    simp only [verifyLoop, hashesMatch]
    split <;> rename_i hne
    · rw [verifyLoop_valid rest]
      have : (c.previous_hash == prev.hash) = false := by simpa using hne
      simp [this]
    · rw [verifyLoop_valid rest]
      have : (c.previous_hash == prev.hash) = true := by simpa using hne
      simp [this]

theorem verifyLoop_errors : ∀ (rest : List Entry) (i : Nat) (prev : Entry)
    (acc : IntegrityResult),
    (verifyLoop i prev rest acc).errors = acc.errors ++ specErrors i prev rest
  | [], i, prev, acc => by simp [verifyLoop, specErrors]
  | c :: rest, i, prev, acc => by
    simp only [verifyLoop, specErrors]
    split <;> rename_i hne
    · rw [verifyLoop_errors rest]
      simp [hne, List.append_assoc]
    · rw [verifyLoop_errors rest]
      simp [hne]

theorem hashesMatch_iff : ∀ (rest : List Entry) (prev : Entry),
    hashesMatch prev rest = true ↔
      ∀ j (h : j < rest.length),
        (rest.get ⟨j, h⟩).previous_hash = (prevAt prev rest j h).hash
  | [], prev => by simp [hashesMatch]
  | c :: rest, prev => by
    simp only [hashesMatch, Bool.and_eq_true, beq_iff_eq]
    constructor
    · rintro ⟨h0, hrest⟩ j hj
      match j with
      | 0 => simpa [prevAt_zero] using h0
      | j + 1 =>
        have hj2 : j < rest.length := by simpa using hj
        have := (hashesMatch_iff rest c).mp hrest j hj2
        simp only [List.get_cons_succ, prevAt_cons_succ]
        rw [this, prevAt_eq_get_cons]
    · intro hall
      refine ⟨?_, (hashesMatch_iff rest c).mpr ?_⟩
      · simpa [prevAt_zero] using hall 0 (by simp)
      · intro j hj
        have := hall (j + 1) (by simpa using hj)
        simp only [List.get_cons_succ, prevAt_cons_succ] at this
        rw [this]

theorem mem_specErrors : ∀ (rest : List Entry) (i : Nat) (prev : Entry)
    (err : IntegrityError),
    err ∈ specErrors i prev rest ↔
      ∃ j, ∃ h : j < rest.length,
        (rest.get ⟨j, h⟩).previous_hash ≠ (prevAt prev rest j h).hash ∧
        err = { index := i + j, error := "Hash chain broken",
                expected := (prevAt prev rest j h).hash,
                actual := (rest.get ⟨j, h⟩).previous_hash }
  | [], i, prev, err => by simp [specErrors]
  | c :: rest, i, prev, err => by
    simp only [specErrors, List.mem_append]
    constructor
    · rintro (hin | hin)
      · split at hin <;> rename_i hne
        · simp only [List.mem_singleton] at hin
          refine ⟨0, by simp, ?_, ?_⟩
          · simpa [prevAt_zero] using hne
          · simpa [prevAt_zero] using hin
        · simp at hin
      · obtain ⟨j, hj, hne, heq⟩ := (mem_specErrors rest (i + 1) c err).mp hin
        refine ⟨j + 1, by simpa using hj, ?_, ?_⟩
        · simpa [List.get_cons_succ, prevAt_cons_succ] using hne
        · simp only [List.get_cons_succ, prevAt_cons_succ]
          rw [heq]
          congr 1
          omega
    · rintro ⟨j, hj, hne, heq⟩
      match j with
      | 0 =>
        left
        rw [if_pos (by simpa [prevAt_zero] using hne)]
        simp only [List.mem_singleton]
        simpa [prevAt_zero] using heq
      | j + 1 =>
        right
        refine (mem_specErrors rest (i + 1) c err).mpr ⟨j, by simpa using hj, ?_, ?_⟩
        · simpa [List.get_cons_succ, prevAt_cons_succ] using hne
        · simp only [List.get_cons_succ, prevAt_cons_succ] at heq
          rw [heq]
          congr 1
          omega

end ImmutableLedger

open ImmutableLedger in
/-- C1: after any sequence of append attempts, every ledger entry's
`index` equals its 0-based position (a dense strictly increasing
sequence), the first entry's `previous_hash` is the genesis constant
"0", and every later entry's `previous_hash` equals the `hash` of the
immediately preceding entry. -/
theorem ledger_chain_invariant (inputs : List (Token × String × Nat))
    (i : Nat) (h : i < (runAppends inputs).ledger.length) :
    ((runAppends inputs).ledger.get ⟨i, h⟩).index = i ∧
    (i = 0 → ((runAppends inputs).ledger.get ⟨i, h⟩).previous_hash = "0") ∧
    (0 < i → ((runAppends inputs).ledger.get ⟨i, h⟩).previous_hash =
      ((runAppends inputs).ledger.get ⟨i - 1, by omega⟩).hash) := by
  have hc := (ledgerInv_runAppends inputs).1
  have hg := chainedFrom_get (runAppends inputs).ledger "0" 0 hc i h
  refine ⟨by simpa using hg.1, ?_, ?_⟩
  · intro h0
    rw [hg.2]
    simp [h0]
  · intro h0
    rw [hg.2]
    rw [dif_neg (by omega)]

/-- Three immutable tokens with distinct content. -/
def inputs3 : List (Token × String × Nat) :=
  [({ id := "A", type := "ALC", owner := "o", value := 1, timestamp := "t0",
      immutable := true }, "i0", 0),
   ({ id := "B", type := "ALC", owner := "o", value := 2, timestamp := "t1",
      immutable := true }, "i1", 1),
   ({ id := "C", type := "ALC", owner := "o", value := 3, timestamp := "t2",
      immutable := true }, "i2", 2)]

open ImmutableLedger in
/-- Witness for `ledger_chain_invariant` at position 1 of a three-append run. -/
theorem ledger_chain_invariant_witness :
    1 < (runAppends inputs3).ledger.length ∧
      ((runAppends inputs3).ledger.get ⟨1, by decide⟩).index = 1 :=
  ⟨by decide, (ledger_chain_invariant inputs3 1 (by decide)).1⟩

open ImmutableLedger in
/-- C5: after 250 successful appends, exactly two batch digests exist,
covering entry ranges [0, 99] and [100, 199]; every entry with index
below 200 is sealed with its digest's id set, and entries 200–249
remain unsealed with no digest id. -/
theorem seal_after_250_appends (inputs : List (Token × String × Nat))
    (hlen : inputs.length = 250) (himm : ∀ x ∈ inputs, x.1.immutable = true) :
    (runAppends inputs).ledger.length = 250 ∧
    (runAppends inputs).merkleRoots.map (fun r => (r.batch_start, r.batch_end)) =
      [(0, (99 : Int)), (100, 199)] ∧
    (∀ i (h : i < (runAppends inputs).ledger.length),
      (i < 200 →
        ((runAppends inputs).ledger.get ⟨i, h⟩).sealed = true ∧
        ∃ hk : i / 100 < (runAppends inputs).merkleRoots.length,
          ((runAppends inputs).ledger.get ⟨i, h⟩).merkle_root =
            some ((runAppends inputs).merkleRoots.get ⟨i / 100, hk⟩).root_id) ∧
      (200 ≤ i →
        ((runAppends inputs).ledger.get ⟨i, h⟩).sealed = false ∧
        ((runAppends inputs).ledger.get ⟨i, h⟩).merkle_root = none)) := by
  have hlen2 : (runAppends inputs).ledger.length = 250 := by
    rw [runAppends_length inputs himm, hlen]
  have hseal := (ledgerInv_runAppends inputs).2
  have hmap := hseal.1
  have hentries := hseal.2
  rw [hlen2] at hmap
  refine ⟨hlen2, ?_, ?_⟩
  · rw [hmap]
    decide
  · intro i h
    have hcut : 100 * ((runAppends inputs).ledger.length / 100) = 200 := by
      rw [hlen2]
    have he := hentries i h
    rw [hcut] at he
    exact he

/-- 250 immutable tokens with distinct content. -/
def inputs250 : List (Token × String × Nat) :=
  (List.range 250).map (fun k =>
    ({ id := "T" ++ toString k, type := "ALC", owner := "o", value := 1,
       timestamp := "ts", immutable := true }, "iso", k))

set_option maxRecDepth 10000 in
open ImmutableLedger in
/-- Witness for `seal_after_250_appends` at a concrete 250-append run. -/
theorem seal_after_250_appends_witness :
    inputs250.length = 250 ∧
      (runAppends inputs250).merkleRoots.map (fun r => (r.batch_start, r.batch_end)) =
        [(0, (99 : Int)), (100, 199)] :=
  ⟨by decide, (seal_after_250_appends inputs250 (by decide) (by decide)).2.1⟩

/-- An (arbitrary) two-entry ledger state for exercising the seal
check directly. -/
def twoEntryLedger : ImmutableLedger :=
  { ledger :=
      [{ index := 0, token_id := "A", token_type := "ALC", owner := "o", value := 1,
         timestamp := "t0", added_at := 0, hash := "h0", previous_hash := "0",
         immutable := true, sealed := false, merkle_root := none },
       { index := 1, token_id := "B", token_type := "ALC", owner := "o", value := 2,
         timestamp := "t1", added_at := 1, hash := "h1", previous_hash := "h0",
         immutable := true, sealed := false, merkle_root := none }],
    merkleRoots := [], sealed := false }

/-- The digest list after invoking the seal check twice on the same
two-entry ledger state (ledger length unchanged by sealing). -/
def doubleSealRoots : List MerkleRoot :=
  (ImmutableLedger.createMerkleRoot "t3" 3
      (ImmutableLedger.createMerkleRoot "t2" 2 twoEntryLedger).1).1.merkleRoots

/-- C6 counterexample: invoking the seal check (`createMerkleRoot`)
twice at the same ledger length does NOT produce exactly one
`BatchDigest` for the entry range: it produces two digests covering
the same range [0, 1]. -/
theorem createMerkleRoot_not_idempotent_cex :
    ¬ ((doubleSealRoots.filter
          (fun r => r.batch_start == 0 && r.batch_end == 1)).length = 1) ∧
      (doubleSealRoots.filter
          (fun r => r.batch_start == 0 && r.batch_end == 1)).length = 2 := by
  have h2 : (doubleSealRoots.filter
      (fun r => r.batch_start == 0 && r.batch_end == 1)).length = 2 := by decide
  refine ⟨fun hcon => ?_, h2⟩
  omega

open ImmutableLedger in
/-- C6 (amended): in the append-driven flow, where the seal check runs
only when an append brings the ledger length to a multiple of 100,
each range is sealed at most once: the digests' `(rangeStart,
rangeEnd)` pairs after any sequence of appends are pairwise distinct
(`createMerkleRoot` itself has no per-range guard, per the
counterexample). -/
theorem sealed_ranges_pairwise_distinct (inputs : List (Token × String × Nat)) :
    ((runAppends inputs).merkleRoots.map (fun r => (r.batch_start, r.batch_end))).Nodup := by
  have hmap := (ledgerInv_runAppends inputs).2.1
  rw [hmap]
  refine List.Nodup.map ?_ (List.nodup_range _)
  intro a b hab
  have := congrArg Prod.fst hab
  simpa using this

open ImmutableLedger in
/-- C2: `verifyIntegrity` returns `valid = true` iff
`entries[i].previous_hash = entries[i-1].hash` for every `i > 0`;
every mismatch is recorded in `errors` with its offending index, the
expected hash and the actual hash (so verification continues through
the whole chain instead of stopping at the first mismatch), and every
recorded error is a genuine mismatch. -/
theorem verifyIntegrity_spec (s : ImmutableLedger) :
    ((verifyIntegrity s).valid = true ↔
      ∀ i (h : i < s.ledger.length), 0 < i →
        (s.ledger.get ⟨i, h⟩).previous_hash = (s.ledger.get ⟨i - 1, by omega⟩).hash) ∧
    (∀ i (h : i < s.ledger.length), 0 < i →
      (s.ledger.get ⟨i, h⟩).previous_hash ≠ (s.ledger.get ⟨i - 1, by omega⟩).hash →
      ({ index := i, error := "Hash chain broken",
         expected := (s.ledger.get ⟨i - 1, by omega⟩).hash,
         actual := (s.ledger.get ⟨i, h⟩).previous_hash } : IntegrityError) ∈
        (verifyIntegrity s).errors) ∧
    (∀ err ∈ (verifyIntegrity s).errors,
      ∃ h : err.index < s.ledger.length, 0 < err.index ∧
        err.error = "Hash chain broken" ∧
        err.expected = (s.ledger.get ⟨err.index - 1, by omega⟩).hash ∧
        err.actual = (s.ledger.get ⟨err.index, h⟩).previous_hash ∧
        err.actual ≠ err.expected) := by
  match hl : s.ledger with
  | [] =>
    rw [verifyIntegrity, hl]
    refine ⟨?_, ?_, ?_⟩
    · constructor
      · intro _ i h h0
        exact absurd h (by simp)
      · intro _
        rfl
    · intro i h
      exact absurd h (by simp)
    · intro err herr
      simp at herr
  | first :: rest =>
    have hvalid : (verifyIntegrity s).valid = hashesMatch first rest := by
      rw [verifyIntegrity, hl, verifyLoop_valid]
      simp
    have herrs : (verifyIntegrity s).errors = specErrors 1 first rest := by
      rw [verifyIntegrity, hl, verifyLoop_errors]
      simp
    refine ⟨?_, ?_, ?_⟩
    · rw [hvalid, hashesMatch_iff]
      constructor
      · intro hall i h h0
        obtain ⟨j, rfl⟩ : ∃ j, i = j + 1 := ⟨i - 1, by omega⟩
        have hj : j < rest.length := by simpa using h
        have := hall j hj
        simp only [List.get_cons_succ, Nat.add_sub_cancel]
        rw [this, prevAt_eq_get_cons]
      · intro hall j hj
        have h1 : j + 1 < (first :: rest).length := by simpa using hj
        have := hall (j + 1) h1 (by omega)
        simp only [List.get_cons_succ, Nat.add_sub_cancel] at this
        rw [prevAt_eq_get_cons]
        simpa using this
    · intro i h h0 hne
      rw [herrs, mem_specErrors]
      obtain ⟨j, rfl⟩ : ∃ j, i = j + 1 := ⟨i - 1, by omega⟩
      have hj : j < rest.length := by simpa using h
      simp only [List.get_cons_succ, Nat.add_sub_cancel] at hne
      refine ⟨j, hj, ?_, ?_⟩
      · rw [prevAt_eq_get_cons]
        simpa using hne
      · simp only [List.get_cons_succ, Nat.add_sub_cancel, IntegrityError.mk.injEq]
        refine ⟨by omega, by trivial, ?_, by trivial⟩
        rw [prevAt_eq_get_cons]
    · intro err herr
      rw [herrs, mem_specErrors] at herr
      obtain ⟨j, hj, hne, heq⟩ := herr
      rw [heq]
      have hco : 1 + j = j + 1 := by omega
      simp only [hco]
      refine ⟨by simpa using Nat.succ_lt_succ hj, by omega, by trivial, ?_, ?_, ?_⟩
      · simp only [Nat.add_sub_cancel]
        rw [prevAt_eq_get_cons]
      · rw [List.get_cons_succ]
      · rw [prevAt_eq_get_cons] at hne
        simpa [prevAt_eq_get_cons] using hne

/-- A two-entry ledger whose second entry does not link to the first. -/
def brokenLedger : ImmutableLedger :=
  { ledger :=
      [{ index := 0, token_id := "A", token_type := "ALC", owner := "o", value := 1,
         timestamp := "t0", added_at := 0, hash := "h0", previous_hash := "0",
         immutable := true, sealed := false, merkle_root := none },
       { index := 1, token_id := "B", token_type := "ALC", owner := "o", value := 2,
         timestamp := "t1", added_at := 1, hash := "h1", previous_hash := "bad",
         immutable := true, sealed := false, merkle_root := none }],
    merkleRoots := [], sealed := false }

open ImmutableLedger in
/-- Witness for `verifyIntegrity_spec`: the broken link of
`brokenLedger` is reported at index 1 with expected "h0" and actual
"bad", and verification is invalid. -/
theorem verifyIntegrity_spec_witness :
    (verifyIntegrity brokenLedger).valid = false ∧
      ({ index := 1, error := "Hash chain broken", expected := "h0",
         actual := "bad" } : IntegrityError) ∈ (verifyIntegrity brokenLedger).errors :=
  ⟨by decide,
   (verifyIntegrity_spec brokenLedger).2.1 1 (by decide) (by decide) (by decide)⟩

end InfinityMint
